import Mathlib

/-!
Shallow embedding of the `Cryptography` repository core: the 256-bit
unsigned integer `U256` (32 big-endian bytes) with its shift, addition,
subtraction and conversion operations (`src/primitives/ops.rs`,
`src/primitives/conv/*.rs`), and the SHA-256 engine
(`src/hash/sha256/{core,computations,mod}.rs`).

Machine bytes and 32-bit words are modelled as `Nat` with explicit
`% 256` / `% 2 ^ 32` truncation where the Rust code truncates.
-/

namespace Crypto

/-- Value of a little-endian list of bytes (head is least significant). -/
def valLE : List Nat → Nat
  | [] => 0
  | b :: bs => b + 256 * valLE bs

/-- Value of a big-endian list of bytes (head is most significant), the
reading used by Rust's `from_be_bytes`. -/
def valBE (bs : List Nat) : Nat := valLE bs.reverse

/-- Little-endian byte decomposition of a natural number into `k` bytes. -/
def natToBytesLE : Nat → Nat → List Nat
  | 0, _ => []
  | k + 1, n => n % 256 :: natToBytesLE k (n / 256)

/-- Big-endian byte decomposition of a natural number into `k` bytes, the
writing used by Rust's `to_be_bytes`. -/
def natToBytesBE (k n : Nat) : List Nat := (natToBytesLE k n).reverse

/-- The 256-bit unsigned integer type: `pub struct U256(pub [u8; 32])`,
32 bytes stored most-significant first. -/
structure U256 where
  bytes : List Nat
deriving DecidableEq

/-- Well-formed `U256` values hold exactly 32 bytes, each below 256. -/
def U256.WF (v : U256) : Prop := v.bytes.length = 32 ∧ ∀ b ∈ v.bytes, b < 256

instance (v : U256) : Decidable v.WF := by unfold U256.WF; infer_instance

/-- The all-zero `U256`, `U256([0; 32])`. -/
def zeroU256 : U256 := ⟨List.replicate 32 0⟩

/-- Effective shift amount extracted by both shift operators
(`ops.rs`): `(((rhs.0[30] as u32) << 8) | rhs.0[31] as u32) as usize`. -/
def effShift (r : List Nat) : Nat := (r.getD 30 0) <<< 8 ||| r.getD 31 0

/-- Sub-byte carry loop of `Shl::shl` (`ops.rs` lines 57-66).  The Rust
loop runs `i = 0..32` over `out` in place, so reading `out[i - 1]` sees
the value already rewritten by the previous iteration; `out[i] << bit_shift`
truncates to `u8`. -/
def shlBitLoop (out0 : List Nat) (b : Nat) : List Nat :=
  (List.range 32).foldl
    (fun o i =>
      o.set i (((o.getD i 0) <<< b) % 256 |||
        (if 0 < i then (o.getD (i - 1) 0) >>> (8 - b) else 0)))
    out0

/-- Body of `Shl::shl` after the effective amount has been computed:
the zero and `>= 256` early returns, the byte-granularity stage
(`out[i] = self.0[i + byte_shift]` when in range, else 0), then the
sub-byte stage when `bit_shift != 0`. -/
def shlCore (a : List Nat) (shift : Nat) : List Nat :=
  if shift = 0 then a
  else if 256 ≤ shift then List.replicate 32 0
  else
    let byteShift := shift >>> 3
    let bitShift := shift &&& 7
    let out := (List.range 32).map
      fun i => if i + byteShift < 32 then a.getD (i + byteShift) 0 else 0
    if bitShift ≠ 0 then shlBitLoop out bitShift else out

/-- The `Shl<U256> for U256` operator. -/
def shl (a r : U256) : U256 := ⟨shlCore a.bytes (effShift r.bytes)⟩

/-- Sub-byte carry stage of `Shr::shr` (`ops.rs` lines 97-112): the Rust
code copies `out` into `prev` first, then writes
`out[i] = (prev[i] >> bit_shift) | (prev[i + 1] << carry_bits)` (the
shift-left truncating to `u8`, the carry term 0 at `i = 31`). -/
def shrBitStage (prev : List Nat) (b : Nat) : List Nat :=
  (List.range 32).map fun i =>
    (prev.getD i 0) >>> b |||
      (if i + 1 < 32 then ((prev.getD (i + 1) 0) <<< (8 - b)) % 256 else 0)

/-- Body of `Shr::shr` after the effective amount has been computed:
early returns, byte stage (`out[i] = self.0[i - byte_shift]` when
`i >= byte_shift`, else 0), then the sub-byte stage. -/
def shrCore (a : List Nat) (shift : Nat) : List Nat :=
  if shift = 0 then a
  else if 256 ≤ shift then List.replicate 32 0
  else
    let byteShift := shift >>> 3
    let bitShift := shift &&& 7
    let out := (List.range 32).map
      fun i => if byteShift ≤ i then a.getD (i - byteShift) 0 else 0
    if bitShift ≠ 0 then shrBitStage out bitShift else out

/-- The `Shr<U256> for U256` operator. -/
def shr (a r : U256) : U256 := ⟨shrCore a.bytes (effShift r.bytes)⟩

/-- Ripple-carry byte addition, least-significant byte first: the loop of
`Add for U256` runs `i = 31` down to `0` computing
`out[i] = (self.0[i] + rhs.0[i] + carry) & 0xFF` with `carry = s >> 8`;
here the byte lists are reversed so the recursion starts at the LSB. -/
def addLE : List Nat → List Nat → Nat → List Nat
  | x :: xs, y :: ys, c => (x + y + c) % 256 :: addLE xs ys ((x + y + c) / 256)
  | _, _, _ => []

/-- The `Add for U256` operator (wrapping modulo `2 ^ 256`). -/
def add (a b : U256) : U256 := ⟨(addLE a.bytes.reverse b.bytes.reverse 0).reverse⟩

/-- Ripple-borrow byte subtraction, least-significant byte first
(`Sub for U256`): with `s = rhs.0[i] + borrow`, writes `lhs - s` and
borrow 0 when `lhs >= s`, else `lhs + 256 - s` and borrow 1. -/
def subLE : List Nat → List Nat → Nat → List Nat
  | x :: xs, y :: ys, brw =>
    if y + brw ≤ x then (x - (y + brw)) :: subLE xs ys 0
    else (x + 256 - (y + brw)) :: subLE xs ys 1
  | _, _, _ => []

/-- The `Sub for U256` operator (wrapping modulo `2 ^ 256`). -/
def sub (a b : U256) : U256 := ⟨(subLE a.bytes.reverse b.bytes.reverse 0).reverse⟩

/-- Widening `From<u16> for U256` (`conv/u16.rs`): zeroed buffer with
`out[30] = value >> 8` and `out[31] = value & 0xFF`. -/
def u256OfU16 (w : Nat) : U256 :=
  ⟨List.replicate 30 0 ++ [(w >>> 8) % 256, w &&& 0xFF]⟩

/-- Widening `From<u32> for U256` (`conv/u32.rs`): `to_be_bytes` into
bytes 28..32. -/
def u256OfU32 (w : Nat) : U256 := ⟨List.replicate 28 0 ++ natToBytesBE 4 w⟩

/-- Widening `From<u64> for U256` (`conv/u64.rs`): `to_be_bytes` into
bytes 24..32. -/
def u256OfU64 (w : Nat) : U256 := ⟨List.replicate 24 0 ++ natToBytesBE 8 w⟩

/-- Widening `From<u128> for U256` (`conv/u128.rs`): `to_be_bytes` into
bytes 16..32. -/
def u256OfU128 (w : Nat) : U256 := ⟨List.replicate 16 0 ++ natToBytesBE 16 w⟩

/-- Narrowing `TryFrom<U256> for u16`: fails when any of bytes 0..30 is
non-zero, else reads bytes 30..32 big-endian. -/
def u256ToU16 (v : U256) : Option Nat :=
  if (v.bytes.take 30).any (fun b => b != 0) then none
  else some (valBE (v.bytes.drop 30))

/-- Narrowing `TryFrom<U256> for u32`: fails when any of bytes 0..28 is
non-zero, else reads bytes 28..32 big-endian. -/
def u256ToU32 (v : U256) : Option Nat :=
  if (v.bytes.take 28).any (fun b => b != 0) then none
  else some (valBE (v.bytes.drop 28))

/-- Narrowing `TryFrom<U256> for u64`: fails when any of bytes 0..24 is
non-zero, else reads bytes 24..32 big-endian. -/
def u256ToU64 (v : U256) : Option Nat :=
  if (v.bytes.take 24).any (fun b => b != 0) then none
  else some (valBE (v.bytes.drop 24))

/-- Narrowing `TryFrom<U256> for u128`: fails when any of bytes 0..16 is
non-zero, else reads bytes 16..32 big-endian. -/
def u256ToU128 (v : U256) : Option Nat :=
  if (v.bytes.take 16).any (fun b => b != 0) then none
  else some (valBE (v.bytes.drop 16))

/-- Reads `m` consecutive `k`-byte big-endian words from a byte list,
as `chunks_exact(k)` plus `from_be_bytes` in `conv/*.rs`. -/
def toWords (k : Nat) : Nat → List Nat → List Nat
  | 0, _ => []
  | m + 1, bs => valBE (bs.take k) :: toWords k m (bs.drop k)

/-- `From<U256> for [u16; 16]`. -/
def u256ToU16Array (v : U256) : List Nat := toWords 2 16 v.bytes

/-- `From<U256> for [u32; 8]`. -/
def u256ToU32Array (v : U256) : List Nat := toWords 4 8 v.bytes

/-- `From<U256> for [u64; 4]`. -/
def u256ToU64Array (v : U256) : List Nat := toWords 8 4 v.bytes

/-- `From<U256> for [u128; 2]`. -/
def u256ToU128Array (v : U256) : List Nat := toWords 16 2 v.bytes

/-- `From<[u16; 16]> for U256`: each word's `to_be_bytes` copied into its
2-byte slot in order. -/
def u256OfU16Array (ws : List Nat) : U256 := ⟨(ws.map (natToBytesBE 2)).flatten⟩

/-- `From<[u32; 8]> for U256`. -/
def u256OfU32Array (ws : List Nat) : U256 := ⟨(ws.map (natToBytesBE 4)).flatten⟩

/-- `From<[u64; 4]> for U256`. -/
def u256OfU64Array (ws : List Nat) : U256 := ⟨(ws.map (natToBytesBE 8)).flatten⟩

/-- `From<[u128; 2]> for U256`. -/
def u256OfU128Array (ws : List Nat) : U256 := ⟨(ws.map (natToBytesBE 16)).flatten⟩

/-- Initial hash values `H256_INIT` (`sha256/mod.rs`). -/
def H256_INIT : List Nat :=
  [0x6A09E667, 0xBB67AE85, 0x3C6EF372, 0xA54FF53A,
   0x510E527F, 0x9B05688C, 0x1F83D9AB, 0x5BE0CD19]

/-- Round constants `K256` (`sha256/mod.rs`). -/
def K256 : List Nat :=
  [0x428A2F98, 0x71374491, 0xB5C0FBCF, 0xE9B5DBA5, 0x3956C25B, 0x59F111F1,
   0x923F82A4, 0xAB1C5ED5, 0xD807AA98, 0x12835B01, 0x243185BE, 0x550C7DC3,
   0x72BE5D74, 0x80DEB1FE, 0x9BDC06A7, 0xC19BF174, 0xE49B69C1, 0xEFBE4786,
   0x0FC19DC6, 0x240CA1CC, 0x2DE92C6F, 0x4A7484AA, 0x5CB0A9DC, 0x76F988DA,
   0x983E5152, 0xA831C66D, 0xB00327C8, 0xBF597FC7, 0xC6E00BF3, 0xD5A79147,
   0x06CA6351, 0x14292967, 0x27B70A85, 0x2E1B2138, 0x4D2C6DFC, 0x53380D13,
   0x650A7354, 0x766A0ABB, 0x81C2C92E, 0x92722C85, 0xA2BFE8A1, 0xA81A664B,
   0xC24B8B70, 0xC76C51A3, 0xD192E819, 0xD6990624, 0xF40E3585, 0x106AA070,
   0x19A4C116, 0x1E376C08, 0x2748774C, 0x34B0BCB5, 0x391C0CB3, 0x4ED8AA4A,
   0x5B9CCA4F, 0x682E6FF3, 0x748F82EE, 0x78A5636F, 0x84C87814, 0x8CC70208,
   0x90BEFFFA, 0xA4506CEB, 0xBEF9A3F7, 0xC67178F2]

/-- Wrapping 32-bit addition, `u32::wrapping_add`. -/
def wadd (x y : Nat) : Nat := (x + y) % 2 ^ 32

/-- Rotate right of a 32-bit word, `u32::rotate_right` (the left part
truncated to 32 bits). -/
def rotr (x n : Nat) : Nat := x >>> n ||| (x <<< (32 - n)) % 2 ^ 32

/-- Bitwise complement of a 32-bit word, Rust `!x` on `u32`. -/
def u32not (x : Nat) : Nat := x ^^^ (2 ^ 32 - 1)

/-- Word-expansion function `small_sigma0` (`computations.rs`). -/
def small_sigma0 (x : Nat) : Nat := rotr x 7 ^^^ rotr x 18 ^^^ x >>> 3

/-- Word-expansion function `small_sigma1` (`computations.rs`). -/
def small_sigma1 (x : Nat) : Nat := rotr x 17 ^^^ rotr x 19 ^^^ x >>> 10

/-- State-mixing function `big_sigma0` (`computations.rs`). -/
def big_sigma0 (x : Nat) : Nat := rotr x 2 ^^^ rotr x 13 ^^^ rotr x 22

/-- State-mixing function `big_sigma1` (`computations.rs`). -/
def big_sigma1 (x : Nat) : Nat := rotr x 6 ^^^ rotr x 11 ^^^ rotr x 25

/-- Choice function `ch` (`computations.rs`). -/
def ch (e f g : Nat) : Nat := (e &&& f) ^^^ (u32not e &&& g)

/-- Majority function `maj` (`computations.rs`). -/
def maj (a b c : Nat) : Nat := (a &&& b) ^^^ (a &&& c) ^^^ (b &&& c)

/-- Working state threaded through the 64 rounds: the 16-word circular
message schedule `w` plus the eight working variables `a..h`. -/
structure RoundState where
  w : List Nat
  a : Nat
  b : Nat
  c : Nat
  d : Nat
  e : Nat
  f : Nat
  g : Nat
  h : Nat
deriving DecidableEq

/-- One round body of the loop in the standard (`not(feature = "speed")`)
`all_rounds` (`computations.rs` lines 205-247): when `i >= 16` first
rewrites slot `i & 15` of the circular schedule, then computes `t1`, `t2`
and shifts the pipeline. -/
def roundStd (i : Nat) (s : RoundState) : RoundState :=
  let w :=
    if 16 ≤ i then
      let w16 := s.w.getD ((i - 16) &&& 15) 0
      let w15 := s.w.getD ((i - 15) &&& 15) 0
      let w7 := s.w.getD ((i - 7) &&& 15) 0
      let w2 := s.w.getD ((i - 2) &&& 15) 0
      s.w.set (i &&& 15) (wadd (wadd (wadd w16 (small_sigma0 w15)) w7) (small_sigma1 w2))
    else s.w
  let wi := w.getD (i &&& 15) 0
  let ki := K256.getD i 0
  let bs1 := big_sigma1 s.e
  let chv := ch s.e s.f s.g
  let bs0 := big_sigma0 s.a
  let majv := maj s.a s.b s.c
  let t1 := wadd (wadd (wadd (wadd s.h bs1) chv) wi) ki
  let t2 := wadd bs0 majv
  ⟨w, wadd t1 t2, s.a, s.b, s.c, wadd s.d t1, s.e, s.f, s.g⟩

/-- Standard `all_rounds` (`computations.rs`, `not(feature = "speed")`):
loads the state into working variables, loops the round body for
`i = 0..64`, then adds the working variables back into the state. -/
def all_rounds (state w : List Nat) : List Nat :=
  let s0 : RoundState :=
    ⟨w, state.getD 0 0, state.getD 1 0, state.getD 2 0, state.getD 3 0,
     state.getD 4 0, state.getD 5 0, state.getD 6 0, state.getD 7 0⟩
  let s := (List.range 64).foldl (fun t i => roundStd i t) s0
  [wadd (state.getD 0 0) s.a, wadd (state.getD 1 0) s.b,
   wadd (state.getD 2 0) s.c, wadd (state.getD 3 0) s.d,
   wadd (state.getD 4 0) s.e, wadd (state.getD 5 0) s.f,
   wadd (state.getD 6 0) s.g, wadd (state.getD 7 0) s.h]

/-- Round body of the macro `R!` in the `"speed"` `all_rounds`
(`computations.rs` lines 300-344); its text is the same round body the
standard loop uses, expanded once per literal index. -/
def roundSpd (i : Nat) (s : RoundState) : RoundState :=
  let w :=
    if 16 ≤ i then
      let w16 := s.w.getD ((i - 16) &&& 15) 0
      let w15 := s.w.getD ((i - 15) &&& 15) 0
      let w7 := s.w.getD ((i - 7) &&& 15) 0
      let w2 := s.w.getD ((i - 2) &&& 15) 0
      s.w.set (i &&& 15) (wadd (wadd (wadd w16 (small_sigma0 w15)) w7) (small_sigma1 w2))
    else s.w
  let wi := w.getD (i &&& 15) 0
  let ki := K256.getD i 0
  let bs1 := big_sigma1 s.e
  let chv := ch s.e s.f s.g
  let bs0 := big_sigma0 s.a
  let majv := maj s.a s.b s.c
  let t1 := wadd (wadd (wadd (wadd s.h bs1) chv) wi) ki
  let t2 := wadd bs0 majv
  ⟨w, wadd t1 t2, s.a, s.b, s.c, wadd s.d t1, s.e, s.f, s.g⟩

/-- Unrolled `all_rounds` (`computations.rs`, `feature = "speed"`): the
same load and add-back around a fully unrolled sequence `R!(0)` ..
`R!(63)` of the 64 round bodies. -/
def all_rounds_speed (state w : List Nat) : List Nat :=
  let s0 : RoundState :=
    ⟨w, state.getD 0 0, state.getD 1 0, state.getD 2 0, state.getD 3 0,
     state.getD 4 0, state.getD 5 0, state.getD 6 0, state.getD 7 0⟩
  let s :=
    roundSpd 63 (roundSpd 62 (roundSpd 61 (roundSpd 60 (roundSpd 59 (roundSpd 58
    (roundSpd 57 (roundSpd 56 (roundSpd 55 (roundSpd 54 (roundSpd 53 (roundSpd 52
    (roundSpd 51 (roundSpd 50 (roundSpd 49 (roundSpd 48 (roundSpd 47 (roundSpd 46
    (roundSpd 45 (roundSpd 44 (roundSpd 43 (roundSpd 42 (roundSpd 41 (roundSpd 40
    (roundSpd 39 (roundSpd 38 (roundSpd 37 (roundSpd 36 (roundSpd 35 (roundSpd 34
    (roundSpd 33 (roundSpd 32 (roundSpd 31 (roundSpd 30 (roundSpd 29 (roundSpd 28
    (roundSpd 27 (roundSpd 26 (roundSpd 25 (roundSpd 24 (roundSpd 23 (roundSpd 22
    (roundSpd 21 (roundSpd 20 (roundSpd 19 (roundSpd 18 (roundSpd 17 (roundSpd 16
    (roundSpd 15 (roundSpd 14 (roundSpd 13 (roundSpd 12 (roundSpd 11 (roundSpd 10
    (roundSpd 9 (roundSpd 8 (roundSpd 7 (roundSpd 6 (roundSpd 5 (roundSpd 4
    (roundSpd 3 (roundSpd 2 (roundSpd 1 (roundSpd 0
      s0)))))))))))))))))))))))))))))))))))))))))))))))))))))))))))))))
  [wadd (state.getD 0 0) s.a, wadd (state.getD 1 0) s.b,
   wadd (state.getD 2 0) s.c, wadd (state.getD 3 0) s.d,
   wadd (state.getD 4 0) s.e, wadd (state.getD 5 0) s.f,
   wadd (state.getD 6 0) s.g, wadd (state.getD 7 0) s.h]

/-- Parses a 64-byte block into the first 16 schedule words, reading
four-byte big-endian groups in order (`compress`, `core.rs`). -/
def parseBlock (block : List Nat) : List Nat := toWords 4 16 block

/-- Block compression `compress` (`core.rs`): parses the block and runs
the 64 rounds over the current state (standard mode). -/
def compress (state block : List Nat) : List Nat :=
  all_rounds state (parseBlock block)

/-- Final-block construction of `sha256` (`core.rs` lines 129-157): the
remaining `rem <= 63` bytes are copied into a zeroed 64-byte buffer with
`0x80` appended; when `rem > 55` that block is compressed on its own and
a second zeroed block is used; the 64-bit big-endian bit length
`(len as u64) << 3` overwrites the last 8 bytes of the final block. -/
def padTail (tail : List Nat) (len : Nat) : List (List Nat) :=
  let block := tail ++ 0x80 :: List.replicate (63 - tail.length) 0
  let lenBytes := natToBytesBE 8 ((len <<< 3) % 2 ^ 64)
  if 55 < tail.length then [block, (List.replicate 64 0).take 56 ++ lenBytes]
  else [block.take 56 ++ lenBytes]

/-- Loop of `sha256` as structural recursion on a fuel bound: while at
least 64 bytes remain, emit the next complete 64-byte chunk (the
`while i + 64 <= len` loop), then the padded final block(s).  The fuel
only bounds the recursion depth: it is always at least the remaining
length, so the zero-fuel fallback (where fewer than 64 bytes can remain)
agrees with the loop exit. -/
def sha256BlocksGo : Nat → List Nat → Nat → List (List Nat)
  | 0, input, len => padTail input len
  | fuel + 1, input, len =>
    if 64 ≤ input.length then input.take 64 :: sha256BlocksGo fuel (input.drop 64) len
    else padTail input len

/-- Sequence of 64-byte blocks compressed by `sha256` for a message with
original length `len`. -/
def sha256Blocks (input : List Nat) (len : Nat) : List (List Nat) :=
  sha256BlocksGo input.length input len

/-- Top-level `sha256` (`core.rs`): folds `compress` over the block
sequence starting from `H256_INIT`, then packs the final eight state
words big-endian into the `U256` result (`U256::from([u32; 8])`). -/
def sha256 (input : List Nat) : U256 :=
  ⟨(((sha256Blocks input input.length).foldl compress H256_INIT).map
      (natToBytesBE 4)).flatten⟩

/-! Helper lemmas about byte values. -/

theorem valLE_append (xs ys : List Nat) :
    valLE (xs ++ ys) = valLE xs + 256 ^ xs.length * valLE ys := by
  induction xs with
  | nil => simp [valLE]
  | cons x xs ih =>
    rw [List.cons_append]
    simp only [valLE, List.length_cons]
    rw [ih, pow_succ]
    ring

theorem valLE_lt (bs : List Nat) (h : ∀ b ∈ bs, b < 256) :
    valLE bs < 256 ^ bs.length := by
  induction bs with
  | nil => simp [valLE]
  | cons b bs ih =>
    have hb : b < 256 := h b (by simp)
    have ht := ih (fun x hx => h x (by simp [hx]))
    simp only [valLE, List.length_cons]
    calc b + 256 * valLE bs < 256 * (valLE bs + 1) := by omega
      _ ≤ 256 * 256 ^ bs.length := Nat.mul_le_mul_left _ ht
      _ = 256 ^ (bs.length + 1) := by ring

theorem valLE_replicate_zero (n : Nat) : valLE (List.replicate n 0) = 0 := by
  induction n with
  | zero => rfl
  | succ n ih => simp [List.replicate_succ, valLE, ih]

theorem natToBytesLE_length (k n : Nat) : (natToBytesLE k n).length = k := by
  induction k generalizing n with
  | zero => rfl
  | succ k ih => simp [natToBytesLE, ih]

theorem natToBytesLE_lt (k n : Nat) : ∀ b ∈ natToBytesLE k n, b < 256 := by
  induction k generalizing n with
  | zero => simp [natToBytesLE]
  | succ k ih =>
    simp only [natToBytesLE, List.mem_cons]
    rintro b (rfl | hb)
    · exact Nat.mod_lt _ (by norm_num)
    · exact ih _ b hb

theorem valLE_natToBytesLE (k n : Nat) : valLE (natToBytesLE k n) = n % 256 ^ k := by
  induction k generalizing n with
  | zero => simp [natToBytesLE, valLE, Nat.mod_one]
  | succ k ih =>
    simp only [natToBytesLE, valLE, ih]
    rw [show (256 : Nat) ^ (k + 1) = 256 * 256 ^ k by ring, Nat.mod_mul]

theorem natToBytesLE_valLE (bs : List Nat) (h : ∀ b ∈ bs, b < 256) :
    natToBytesLE bs.length (valLE bs) = bs := by
  induction bs with
  | nil => rfl
  | cons b bs ih =>
    have hb : b < 256 := h b (by simp)
    simp only [List.length_cons, natToBytesLE, valLE]
    rw [Nat.add_mul_mod_self_left, Nat.mod_eq_of_lt hb,
      Nat.add_mul_div_left _ _ (by norm_num : (0 : Nat) < 256),
      Nat.div_eq_of_lt hb]
    simp only [Nat.zero_add]
    rw [ih (fun x hx => h x (by simp [hx]))]

theorem valBE_append (xs ys : List Nat) :
    valBE (xs ++ ys) = valBE xs * 256 ^ ys.length + valBE ys := by
  simp only [valBE, List.reverse_append, valLE_append, List.length_reverse]
  ring

theorem valBE_lt (bs : List Nat) (h : ∀ b ∈ bs, b < 256) :
    valBE bs < 256 ^ bs.length := by
  have := valLE_lt bs.reverse (fun b hb => h b (List.mem_reverse.mp hb))
  simpa [valBE] using this

theorem valBE_replicate_zero (n : Nat) : valBE (List.replicate n 0) = 0 := by
  simp [valBE, List.reverse_replicate, valLE_replicate_zero]

theorem natToBytesBE_length (k n : Nat) : (natToBytesBE k n).length = k := by
  simp [natToBytesBE, natToBytesLE_length]

theorem natToBytesBE_lt (k n : Nat) : ∀ b ∈ natToBytesBE k n, b < 256 := by
  intro b hb
  exact natToBytesLE_lt k n b (List.mem_reverse.mp hb)

theorem valBE_natToBytesBE (k n : Nat) : valBE (natToBytesBE k n) = n % 256 ^ k := by
  simp [valBE, natToBytesBE, valLE_natToBytesLE]

theorem natToBytesBE_valBE (bs : List Nat) (h : ∀ b ∈ bs, b < 256) :
    natToBytesBE bs.length (valBE bs) = bs := by
  have := natToBytesLE_valLE bs.reverse (fun b hb => h b (List.mem_reverse.mp hb))
  simp only [List.length_reverse] at this
  simp [natToBytesBE, valBE, this]

/-! Addition and subtraction. -/

theorem subLE_addLE (xs : List Nat) : ∀ (ys : List Nat) (c : Nat),
    xs.length = ys.length → (∀ b ∈ xs, b < 256) → (∀ b ∈ ys, b < 256) →
    c ≤ 1 → subLE (addLE xs ys c) ys c = xs := by
  induction xs with
  | nil =>
    intro ys c hlen _ _ _
    cases ys with
    | nil => rfl
    | cons y ys => simp at hlen
  | cons x xs ih =>
    intro ys c hlen hx hy hc
    cases ys with
    | nil => simp at hlen
    | cons y ys =>
      have hx0 : x < 256 := hx x (by simp)
      have hy0 : y < 256 := hy y (by simp)
      have hm := Nat.mod_lt (x + y + c) (show 0 < 256 by norm_num)
      have hdm := Nat.div_add_mod (x + y + c) 256
      simp only [addLE, subLE]
      by_cases hle : y + c ≤ (x + y + c) % 256
      · have hd0 : (x + y + c) / 256 = 0 := by omega
        rw [if_pos hle, hd0, show (x + y + c) % 256 - (y + c) = x by omega,
          ih ys 0 (by simpa using hlen) (fun b hb => hx b (by simp [hb]))
            (fun b hb => hy b (by simp [hb])) (by omega)]
      · have hd1 : (x + y + c) / 256 = 1 := by omega
        rw [if_neg hle, hd1, show (x + y + c) % 256 + 256 - (y + c) = x by omega,
          ih ys 1 (by simpa using hlen) (fun b hb => hx b (by simp [hb]))
            (fun b hb => hy b (by simp [hb])) (by omega)]

/-- C9: for all well-formed 256-bit values `a` and `b`,
`sub (add a b) b = a` — addition followed by subtraction of the same
value is the identity modulo `2 ^ 256`, addition discarding the final
carry and subtraction wrapping on underflow. -/
theorem add_sub_roundtrip (a b : U256) (ha : a.WF) (hb : b.WF) :
    sub (add a b) b = a := by
  obtain ⟨hal, hav⟩ := ha
  obtain ⟨hbl, hbv⟩ := hb
  show (⟨(subLE ((addLE a.bytes.reverse b.bytes.reverse 0).reverse).reverse
    b.bytes.reverse 0).reverse⟩ : U256) = a
  rw [List.reverse_reverse,
    subLE_addLE a.bytes.reverse b.bytes.reverse 0
      (by simp [hal, hbl])
      (fun x hx => hav x (List.mem_reverse.mp hx))
      (fun x hx => hbv x (List.mem_reverse.mp hx)) (by omega),
    List.reverse_reverse]

/-- Witness for C9 at concrete inputs. -/
theorem add_sub_roundtrip_witness :
    sub (add (u256OfU64 0xFFFFFFFFFFFFFFFF) (u256OfU16 7)) (u256OfU16 7) =
      u256OfU64 0xFFFFFFFFFFFFFFFF :=
  add_sub_roundtrip _ _ (by decide) (by decide)

/-! Byte-aligned shifts. -/

theorem shl_byte_stage (a : List Nat) (k : Nat) (ha : a.length = 32) (hk : k ≤ 32) :
    ((List.range 32).map fun i => if i + k < 32 then a.getD (i + k) 0 else 0) =
      a.drop k ++ List.replicate k 0 := by
  apply List.ext_getElem
  · simp [ha]; omega
  · intro i h1 h2
    simp only [List.length_map, List.length_range] at h1
    simp only [List.getElem_map, List.getElem_range]
    by_cases hik : i + k < 32
    · rw [if_pos hik, List.getD_eq_getElem a 0 (by omega),
        List.getElem_append_left (by simp [ha]; omega), List.getElem_drop]
      congr 1
      omega
    · rw [if_neg hik, List.getElem_append_right (by simp [ha]; omega)]
      simp

theorem shr_byte_stage (a : List Nat) (k : Nat) (ha : a.length = 32) (hk : k ≤ 32) :
    ((List.range 32).map fun i => if k ≤ i then a.getD (i - k) 0 else 0) =
      List.replicate k 0 ++ a.take (32 - k) := by
  apply List.ext_getElem
  · simp [ha]; omega
  · intro i h1 h2
    simp only [List.length_map, List.length_range] at h1
    simp only [List.getElem_map, List.getElem_range]
    by_cases hik : k ≤ i
    · rw [if_pos hik, List.getD_eq_getElem a 0 (by omega),
        List.getElem_append_right (by simpa using hik)]
      rw [List.getElem_take]
      congr 1
      simp
    · rw [if_neg hik, List.getElem_append_left (by simp; omega)]
      simp

theorem shlCore_byteAligned (a : List Nat) (k : Nat) (ha : a.length = 32)
    (hk1 : 1 ≤ k) (hk2 : k ≤ 31) :
    shlCore a (8 * k) = a.drop k ++ List.replicate k 0 := by
  have hbyte : (8 * k) >>> 3 = k := by
    rw [Nat.shiftRight_eq_div_pow]
    omega
  have hbit : (8 * k) &&& 7 = 0 := by
    rw [show (7 : Nat) = 2 ^ 3 - 1 by norm_num, Nat.and_pow_two_sub_one_eq_mod]
    omega
  unfold shlCore
  rw [if_neg (by omega), if_neg (by omega)]
  simp only [hbyte, hbit, ne_eq, not_true_eq_false, if_false]
  exact shl_byte_stage a k ha (by omega)

theorem shrCore_byteAligned (a : List Nat) (k : Nat) (ha : a.length = 32)
    (hk1 : 1 ≤ k) (hk2 : k ≤ 31) :
    shrCore a (8 * k) = List.replicate k 0 ++ a.take (32 - k) := by
  have hbyte : (8 * k) >>> 3 = k := by
    rw [Nat.shiftRight_eq_div_pow]
    omega
  have hbit : (8 * k) &&& 7 = 0 := by
    rw [show (7 : Nat) = 2 ^ 3 - 1 by norm_num, Nat.and_pow_two_sub_one_eq_mod]
    omega
  unfold shrCore
  rw [if_neg (by omega), if_neg (by omega)]
  simp only [hbyte, hbit, ne_eq, not_true_eq_false, if_false]
  exact shr_byte_stage a k ha (by omega)

theorem valBE_drop_eq_mod (a : List Nat) (k : Nat) (h : ∀ b ∈ a, b < 256) :
    valBE (a.drop k) = valBE a % 256 ^ (a.length - k) := by
  have hsplit : valBE a = valBE (a.take k) * 256 ^ (a.length - k) + valBE (a.drop k) := by
    conv_lhs => rw [← List.take_append_drop k a]
    rw [valBE_append, List.length_drop]
  have hlt : valBE (a.drop k) < 256 ^ (a.length - k) := by
    have hl := valBE_lt (a.drop k) (fun b hb => h b (List.mem_of_mem_drop hb))
    rwa [List.length_drop] at hl
  rw [hsplit, Nat.mul_comm, Nat.mul_add_mod, Nat.mod_eq_of_lt hlt]

theorem valBE_take_eq_div (a : List Nat) (k : Nat) (h : ∀ b ∈ a, b < 256)
    (hk : k ≤ a.length) :
    valBE (a.take (a.length - k)) = valBE a / 256 ^ k := by
  have hdl : (a.drop (a.length - k)).length = k := by
    rw [List.length_drop]
    omega
  have hsplit : valBE a =
      valBE (a.take (a.length - k)) * 256 ^ k + valBE (a.drop (a.length - k)) := by
    conv_lhs => rw [← List.take_append_drop (a.length - k) a]
    rw [valBE_append, hdl]
  have hlt : valBE (a.drop (a.length - k)) < 256 ^ k := by
    have hl := valBE_lt (a.drop (a.length - k)) (fun b hb => h b (List.mem_of_mem_drop hb))
    rwa [hdl] at hl
  rw [hsplit, Nat.mul_comm, Nat.mul_add_div (by norm_num), Nat.div_eq_of_lt hlt,
    Nat.add_zero]

/-- C10: for every well-formed 256-bit value and every amount whose
effective low-16-bit value is a byte-aligned `8 * k` with `1 ≤ k ≤ 31`
(so that the sub-byte bit-shift stage is skipped), the left shift equals
multiplication by `2 ^ (8 k)` modulo `2 ^ 256` and the right shift equals
truncating division by `2 ^ (8 k)`: the byte-granularity stage alone is
arithmetically exact. -/
theorem shift_byte_aligned (a r : U256) (k : Nat) (ha : a.WF)
    (hk1 : 1 ≤ k) (hk2 : k ≤ 31) (hr : effShift r.bytes = 8 * k) :
    valBE (shl a r).bytes = valBE a.bytes * 2 ^ (8 * k) % 2 ^ 256 ∧
    valBE (shr a r).bytes = valBE a.bytes / 2 ^ (8 * k) := by
  obtain ⟨hal, hav⟩ := ha
  have h2k : (2 : Nat) ^ (8 * k) = 256 ^ k := by
    rw [show (256 : Nat) = 2 ^ 8 by norm_num, ← pow_mul]
  constructor
  · show valBE (shlCore a.bytes (effShift r.bytes)) = _
    rw [hr, shlCore_byteAligned a.bytes k hal hk1 hk2, valBE_append,
      valBE_replicate_zero, List.length_replicate, Nat.add_zero,
      valBE_drop_eq_mod a.bytes k hav, hal, h2k,
      show (2 : Nat) ^ 256 = 256 ^ (32 - k) * 256 ^ k by
        rw [show (256 : Nat) = 2 ^ 8 by norm_num, ← pow_mul, ← pow_mul, ← pow_add]
        congr 1
        omega,
      Nat.mul_mod_mul_right]
  · show valBE (shrCore a.bytes (effShift r.bytes)) = _
    rw [hr, shrCore_byteAligned a.bytes k hal hk1 hk2, valBE_append,
      valBE_replicate_zero, Nat.zero_mul, Nat.zero_add, h2k,
      show (32 : Nat) - k = a.bytes.length - k by omega,
      valBE_take_eq_div a.bytes k hav (by omega)]

/-- C2, evaluated at failing inputs: the sub-byte carry loops propagate
the carry from the wrong neighbor, so `shl` loses the bits leaving a byte
(`0x80 <<< 1` yields 0, not `0x100`) and injects spurious low bits
(`0x4000 <<< 1` yields `0x8001`, not `0x8000`), and `shr` moves the bits
leaving a byte upward instead of into the next lower byte
(`3 >>> 1` yields `0x8001`, not `1`).  The last two conjuncts record the
values the claim requires at these inputs. -/
theorem shift_carry_bug :
    valBE (shl (u256OfU16 0x80) (u256OfU16 1)).bytes = 0 ∧
    valBE (shl (u256OfU16 0x4000) (u256OfU16 1)).bytes = 0x8001 ∧
    valBE (shr (u256OfU16 3) (u256OfU16 1)).bytes = 0x8001 ∧
    valBE (u256OfU16 0x80).bytes * 2 ^ 1 % 2 ^ 256 = 0x100 ∧
    valBE (u256OfU16 3).bytes / 2 ^ 1 = 1 := by
  decide

/-- Counterexample to C3 as stated: the amount `0x10000` is numerically
at least 256, but its low 16 bits are zero, so both shifts return the
value unchanged rather than all-zero. -/
theorem shift_ge256_counterexample :
    256 ≤ valBE (u256OfU32 0x10000).bytes ∧
    shl (u256OfU16 1) (u256OfU32 0x10000) = u256OfU16 1 ∧
    shr (u256OfU16 1) (u256OfU32 0x10000) = u256OfU16 1 ∧
    u256OfU16 1 ≠ zeroU256 := by
  decide

/-- C3 amended: for every 256-bit value and every amount whose
effective value — the low 16 bits, bytes 30 and 31 — is at least 256,
both shifts return the all-zero value. -/
theorem shift_ge256_effective (a r : U256) (h : 256 ≤ effShift r.bytes) :
    shl a r = zeroU256 ∧ shr a r = zeroU256 := by
  constructor
  · show (⟨shlCore a.bytes (effShift r.bytes)⟩ : U256) = zeroU256
    unfold shlCore
    rw [if_neg (by omega), if_pos h]
    rfl
  · show (⟨shrCore a.bytes (effShift r.bytes)⟩ : U256) = zeroU256
    unfold shrCore
    rw [if_neg (by omega), if_pos h]
    rfl

/-- Witness for the amended C3 at concrete inputs. -/
theorem shift_ge256_effective_witness :
    shl (u256OfU16 3) (u256OfU16 300) = zeroU256 ∧
    shr (u256OfU16 3) (u256OfU16 300) = zeroU256 :=
  shift_ge256_effective _ _ (by decide)

/-- C4: for both shift operations the result depends only on bytes 30
and 31 of the amount operand; when those bytes are zero the value is
returned unchanged, and when the number they encode is at least 256 the
result is all-zero. -/
theorem shift_amount_low16 (a r r' : U256)
    (h30 : r.bytes.getD 30 0 = r'.bytes.getD 30 0)
    (h31 : r.bytes.getD 31 0 = r'.bytes.getD 31 0) :
    (shl a r = shl a r' ∧ shr a r = shr a r') ∧
    (effShift r.bytes = 0 → shl a r = a ∧ shr a r = a) ∧
    (256 ≤ effShift r.bytes → shl a r = zeroU256 ∧ shr a r = zeroU256) := by
  have heff : effShift r.bytes = effShift r'.bytes := by
    unfold effShift
    rw [h30, h31]
  refine ⟨⟨?_, ?_⟩, fun h0 => ⟨?_, ?_⟩, fun hge => ⟨?_, ?_⟩⟩
  · unfold shl
    rw [heff]
  · unfold shr
    rw [heff]
  · show (⟨shlCore a.bytes (effShift r.bytes)⟩ : U256) = a
    rw [h0]
    rfl
  · show (⟨shrCore a.bytes (effShift r.bytes)⟩ : U256) = a
    rw [h0]
    rfl
  · show (⟨shlCore a.bytes (effShift r.bytes)⟩ : U256) = zeroU256
    unfold shlCore
    rw [if_neg (by omega), if_pos hge]
    rfl
  · show (⟨shrCore a.bytes (effShift r.bytes)⟩ : U256) = zeroU256
    unfold shrCore
    rw [if_neg (by omega), if_pos hge]
    rfl

/-- Witness for C4 at concrete inputs: the two amounts differ in their
high bytes but agree on bytes 30 and 31. -/
theorem shift_amount_low16_witness :
    (shl (u256OfU64 0x123456789ABCDEF) (u256OfU32 0xABCD0005) =
        shl (u256OfU64 0x123456789ABCDEF) (u256OfU16 5) ∧
      shr (u256OfU64 0x123456789ABCDEF) (u256OfU32 0xABCD0005) =
        shr (u256OfU64 0x123456789ABCDEF) (u256OfU16 5)) ∧
    (effShift (u256OfU32 0xABCD0005).bytes = 0 →
      shl (u256OfU64 0x123456789ABCDEF) (u256OfU32 0xABCD0005) = u256OfU64 0x123456789ABCDEF ∧
      shr (u256OfU64 0x123456789ABCDEF) (u256OfU32 0xABCD0005) = u256OfU64 0x123456789ABCDEF) ∧
    (256 ≤ effShift (u256OfU32 0xABCD0005).bytes →
      shl (u256OfU64 0x123456789ABCDEF) (u256OfU32 0xABCD0005) = zeroU256 ∧
      shr (u256OfU64 0x123456789ABCDEF) (u256OfU32 0xABCD0005) = zeroU256) :=
  shift_amount_low16 _ _ _ (by decide) (by decide)

/-! Narrowing and widening conversions. -/

theorem narrowSpec (z : Nat) (v : U256) :
    ((if (v.bytes.take z).any (fun b => b != 0) then none
        else some (valBE (v.bytes.drop z))) ≠ none ↔ ∀ b ∈ v.bytes.take z, b = 0) ∧
    ((∀ b ∈ v.bytes.take z, b = 0) →
      (if (v.bytes.take z).any (fun b => b != 0) then none
        else some (valBE (v.bytes.drop z))) = some (valBE (v.bytes.drop z))) := by
  cases h : (v.bytes.take z).any (fun b => b != 0) with
  | false =>
    rw [List.any_eq_false] at h
    have hall : ∀ b ∈ v.bytes.take z, b = 0 := fun b hb => by simpa using h b hb
    exact ⟨⟨fun _ => hall, fun _ => by simp⟩, fun _ => by simp⟩
  | true =>
    rw [List.any_eq_true] at h
    obtain ⟨b, hb, hbne⟩ := h
    have hnz : b ≠ 0 := by simpa using hbne
    exact ⟨⟨fun hne => (hne rfl).elim, fun hall => (hnz (hall b hb)).elim⟩,
      fun hall => (hnz (hall b hb)).elim⟩

theorem narrow_of_wide (z k w : Nat) (hw : w < 256 ^ k) :
    (if ((List.replicate z 0 ++ natToBytesBE k w).take z).any (fun b => b != 0) then none
      else some (valBE ((List.replicate z 0 ++ natToBytesBE k w).drop z))) = some w := by
  have hlen : (List.replicate z (0 : Nat)).length = z := by simp
  have htake : (List.replicate z 0 ++ natToBytesBE k w).take z = List.replicate z 0 := by
    have ht := List.take_left (List.replicate z (0 : Nat)) (natToBytesBE k w)
    rwa [hlen] at ht
  have hdrop : (List.replicate z 0 ++ natToBytesBE k w).drop z = natToBytesBE k w := by
    have hd := List.drop_left (List.replicate z (0 : Nat)) (natToBytesBE k w)
    rwa [hlen] at hd
  rw [htake, hdrop]
  simp [valBE_natToBytesBE, Nat.mod_eq_of_lt hw]

theorem u256OfU16_eq_bytes (w : Nat) :
    u256OfU16 w = ⟨List.replicate 30 0 ++ natToBytesBE 2 w⟩ := by
  have h1 : natToBytesBE 2 w = [w / 256 % 256, w % 256] := rfl
  have h2 : w >>> 8 = w / 256 := by
    rw [Nat.shiftRight_eq_div_pow]
  have h3 : w &&& 0xFF = w % 256 := by
    rw [show (0xFF : Nat) = 2 ^ 8 - 1 by norm_num, Nat.and_pow_two_sub_one_eq_mod]
  rw [u256OfU16, h1, h2, h3]

/-- C7: for each target width in 16, 32, 64, 128 bits, the narrowing
conversion succeeds if and only if every byte above that width's
low-order byte group is zero, in which case it returns the low-order
word read big-endian; otherwise it returns the explicit failure value;
and widening any in-range word then narrowing back returns the word. -/
theorem narrowing_conversions :
    ((∀ v : U256,
        (u256ToU16 v ≠ none ↔ ∀ b ∈ v.bytes.take 30, b = 0) ∧
        ((∀ b ∈ v.bytes.take 30, b = 0) → u256ToU16 v = some (valBE (v.bytes.drop 30)))) ∧
      ∀ w : Nat, w < 2 ^ 16 → u256ToU16 (u256OfU16 w) = some w) ∧
    ((∀ v : U256,
        (u256ToU32 v ≠ none ↔ ∀ b ∈ v.bytes.take 28, b = 0) ∧
        ((∀ b ∈ v.bytes.take 28, b = 0) → u256ToU32 v = some (valBE (v.bytes.drop 28)))) ∧
      ∀ w : Nat, w < 2 ^ 32 → u256ToU32 (u256OfU32 w) = some w) ∧
    ((∀ v : U256,
        (u256ToU64 v ≠ none ↔ ∀ b ∈ v.bytes.take 24, b = 0) ∧
        ((∀ b ∈ v.bytes.take 24, b = 0) → u256ToU64 v = some (valBE (v.bytes.drop 24)))) ∧
      ∀ w : Nat, w < 2 ^ 64 → u256ToU64 (u256OfU64 w) = some w) ∧
    ((∀ v : U256,
        (u256ToU128 v ≠ none ↔ ∀ b ∈ v.bytes.take 16, b = 0) ∧
        ((∀ b ∈ v.bytes.take 16, b = 0) → u256ToU128 v = some (valBE (v.bytes.drop 16)))) ∧
      ∀ w : Nat, w < 2 ^ 128 → u256ToU128 (u256OfU128 w) = some w) := by
  refine ⟨⟨fun v => narrowSpec 30 v, fun w hw => ?_⟩,
    ⟨fun v => narrowSpec 28 v, fun w hw => ?_⟩,
    ⟨fun v => narrowSpec 24 v, fun w hw => ?_⟩,
    ⟨fun v => narrowSpec 16 v, fun w hw => ?_⟩⟩
  · rw [u256OfU16_eq_bytes]
    exact narrow_of_wide 30 2 w (by norm_num at hw ⊢; omega)
  · exact narrow_of_wide 28 4 w (by norm_num at hw ⊢; omega)
  · exact narrow_of_wide 24 8 w (by norm_num at hw ⊢; omega)
  · exact narrow_of_wide 16 16 w (by norm_num at hw ⊢; omega)

/-- Witness for C7 at concrete inputs. -/
theorem narrowing_conversions_witness :
    u256ToU16 (u256OfU16 0xBEEF) = some 0xBEEF ∧
    u256ToU32 (u256OfU32 0xDEADBEEF) = some 0xDEADBEEF ∧
    u256ToU64 (u256OfU64 0xDEADBEEF12345678) = some 0xDEADBEEF12345678 ∧
    u256ToU128 (u256OfU128 0x0123456789ABCDEF0123456789ABCDEF) =
      some 0x0123456789ABCDEF0123456789ABCDEF :=
  ⟨narrowing_conversions.1.2 _ (by norm_num),
    narrowing_conversions.2.1.2 _ (by norm_num),
    narrowing_conversions.2.2.1.2 _ (by norm_num),
    narrowing_conversions.2.2.2.2 _ (by norm_num)⟩

set_option maxRecDepth 100000 in
/-- C1: the digest of the empty byte sequence and of the three bytes
of the string `abc` are the two known SHA-256 constants, read as the
32-byte big-endian representation of the returned value. -/
theorem sha256_known_digests :
    sha256 [] =
      ⟨natToBytesBE 32 0xe3b0c44298fc1c149afbf4c8996fb92427ae41e4649b934ca495991b7852b855⟩ ∧
    sha256 [0x61, 0x62, 0x63] =
      ⟨natToBytesBE 32 0xba7816bf8f01cfea414140de5dae2223b00361a396177a9cb410ff61f20015ad⟩ := by
  decide

/-- C6: the loop-based 64-round function and the fully unrolled
64-round function leave the state in identical final values for every
8-word state and 16-word initial schedule. -/
theorem all_rounds_eq_speed (state w : List Nat) :
    all_rounds state w = all_rounds_speed state w := by
  have hfun : roundStd = roundSpd := rfl
  unfold all_rounds all_rounds_speed
  rw [hfun]
  rfl

/-! Block counts and the length field. -/

theorem padTail_length (tail : List Nat) (len : Nat) :
    (padTail tail len).length = if 55 < tail.length then 2 else 1 := by
  unfold padTail
  split_ifs <;> rfl

theorem padTail_last (tail : List Nat) (len : Nat) (h : tail.length ≤ 63) :
    ∃ bl, (padTail tail len).getLast? = some bl ∧ bl.length = 64 ∧
      bl.drop 56 = natToBytesBE 8 ((len <<< 3) % 2 ^ 64) := by
  simp only [padTail]
  by_cases hc : 55 < tail.length
  · rw [if_pos hc]
    refine ⟨_, by rw [List.getLast?_cons_cons, List.getLast?_singleton], ?_, ?_⟩
    · simp [natToBytesBE_length]
    · have hlen : ((List.replicate 64 (0 : Nat)).take 56).length = 56 := by simp
      have hd := List.drop_left ((List.replicate 64 (0 : Nat)).take 56)
        (natToBytesBE 8 ((len <<< 3) % 2 ^ 64))
      rwa [hlen] at hd
  · rw [if_neg hc]
    refine ⟨_, by rw [List.getLast?_singleton], ?_, ?_⟩
    · simp only [List.length_append, List.length_take, List.length_cons,
        List.length_replicate, natToBytesBE_length]
      omega
    · have hlen : ((tail ++ 0x80 :: List.replicate (63 - tail.length) 0).take 56).length = 56 := by
        simp only [List.length_take, List.length_append, List.length_cons,
          List.length_replicate]
        omega
      have hd := List.drop_left ((tail ++ 0x80 :: List.replicate (63 - tail.length) 0).take 56)
        (natToBytesBE 8 ((len <<< 3) % 2 ^ 64))
      rwa [hlen] at hd

theorem sha256BlocksGo_spec (fuel : Nat) : ∀ (input : List Nat) (len : Nat),
    input.length ≤ fuel →
    (sha256BlocksGo fuel input len).length = (input.length + 72) / 64 ∧
    ∃ bl, (sha256BlocksGo fuel input len).getLast? = some bl ∧ bl.length = 64 ∧
      bl.drop 56 = natToBytesBE 8 ((len <<< 3) % 2 ^ 64) := by
  induction fuel with
  | zero =>
    intro input len hle
    have h0 : input.length = 0 := by omega
    constructor
    · show (padTail input len).length = _
      rw [padTail_length, h0]
      norm_num
    · exact padTail_last input len (by omega)
  | succ fuel ih =>
    intro input len hle
    simp only [sha256BlocksGo]
    by_cases hc : 64 ≤ input.length
    · rw [if_pos hc]
      obtain ⟨ihl, bl, ihlast, hbl64, hbldrop⟩ :=
        ih (input.drop 64) len (by simp only [List.length_drop]; omega)
      constructor
      · simp only [List.length_cons, ihl, List.length_drop]
        omega
      · refine ⟨bl, ?_, hbl64, hbldrop⟩
        cases hsh : sha256BlocksGo fuel (input.drop 64) len with
        | nil => rw [hsh] at ihlast; simp at ihlast
        | cons b l =>
          rw [List.getLast?_cons_cons]
          rw [hsh] at ihlast
          exact ihlast
    · rw [if_neg hc]
      constructor
      · rw [padTail_length]
        split_ifs <;> omega
      · exact padTail_last input len (by omega)

/-- C5: digesting an input of length `L` compresses exactly
`⌈(L + 9) / 64⌉` blocks — `sha256` folds `compress` over exactly this
block sequence — and the final block carries `8 L`, reduced to an
unsigned 64-bit value, big-endian in its last 8 bytes (bytes 56-63). -/
theorem sha256_block_count (input : List Nat) :
    (sha256Blocks input input.length).length = (input.length + 9 + 63) / 64 ∧
    ∃ bl, (sha256Blocks input input.length).getLast? = some bl ∧ bl.length = 64 ∧
      bl.drop 56 = natToBytesBE 8 (8 * input.length % 2 ^ 64) := by
  have h := sha256BlocksGo_spec input.length input input.length le_rfl
  have hsh : input.length <<< 3 = 8 * input.length := by
    rw [Nat.shiftLeft_eq]
    ring
  rw [hsh] at h
  exact ⟨by rw [show input.length + 9 + 63 = input.length + 72 from by omega]; exact h.1, h.2⟩

/-! Word-array round trips. -/

theorem toWords_flatten (k : Nat) : ∀ (m : Nat) (bs : List Nat),
    bs.length = k * m → (∀ b ∈ bs, b < 256) →
    ((toWords k m bs).map (natToBytesBE k)).flatten = bs := by
  intro m
  induction m with
  | zero =>
    intro bs hlen _
    have hnil : bs = [] := List.length_eq_zero.mp (by omega)
    simp [toWords, hnil]
  | succ m ih =>
    intro bs hlen hb
    have hmul : k * (m + 1) = k * m + k := by ring
    simp only [toWords, List.map_cons, List.flatten_cons]
    have htk : (bs.take k).length = k := by
      rw [List.length_take]
      omega
    have hround : natToBytesBE k (valBE (bs.take k)) = bs.take k := by
      have hh := natToBytesBE_valBE (bs.take k) (fun b hb2 => hb b (List.mem_of_mem_take hb2))
      rwa [htk] at hh
    rw [hround,
      ih (bs.drop k) (by rw [List.length_drop]; omega)
        (fun b hb2 => hb b (List.mem_of_mem_drop hb2)),
      List.take_append_drop]

theorem toWords_of_flatten (k : Nat) : ∀ (ws : List Nat),
    (∀ w ∈ ws, w < 256 ^ k) →
    toWords k ws.length ((ws.map (natToBytesBE k)).flatten) = ws := by
  intro ws
  induction ws with
  | nil => intro _; rfl
  | cons w ws ih =>
    intro hw
    simp only [List.map_cons, List.flatten_cons, List.length_cons, toWords]
    have hlen : (natToBytesBE k w).length = k := natToBytesBE_length k w
    have htake :
        (natToBytesBE k w ++ (ws.map (natToBytesBE k)).flatten).take k = natToBytesBE k w := by
      have ht := List.take_left (natToBytesBE k w) ((ws.map (natToBytesBE k)).flatten)
      rwa [hlen] at ht
    have hdrop :
        (natToBytesBE k w ++ (ws.map (natToBytesBE k)).flatten).drop k =
          (ws.map (natToBytesBE k)).flatten := by
      have hd := List.drop_left (natToBytesBE k w) ((ws.map (natToBytesBE k)).flatten)
      rwa [hlen] at hd
    rw [htake, hdrop, valBE_natToBytesBE, Nat.mod_eq_of_lt (hw w (by simp)),
      ih (fun x hx => hw x (by simp [hx]))]

/-- C8: for every well-formed 256-bit value and each word-array width,
converting to the array form and back is the identity; and for every
array of in-range words of the right length, converting to a 256-bit
value and back is the identity — each array conversion is a lossless
bijection with the 32-byte representation. -/
theorem array_roundtrips :
    (∀ v : U256, v.WF →
      u256OfU16Array (u256ToU16Array v) = v ∧
      u256OfU32Array (u256ToU32Array v) = v ∧
      u256OfU64Array (u256ToU64Array v) = v ∧
      u256OfU128Array (u256ToU128Array v) = v) ∧
    (∀ ws : List Nat, ws.length = 16 → (∀ w ∈ ws, w < 2 ^ 16) →
      u256ToU16Array (u256OfU16Array ws) = ws) ∧
    (∀ ws : List Nat, ws.length = 8 → (∀ w ∈ ws, w < 2 ^ 32) →
      u256ToU32Array (u256OfU32Array ws) = ws) ∧
    (∀ ws : List Nat, ws.length = 4 → (∀ w ∈ ws, w < 2 ^ 64) →
      u256ToU64Array (u256OfU64Array ws) = ws) ∧
    (∀ ws : List Nat, ws.length = 2 → (∀ w ∈ ws, w < 2 ^ 128) →
      u256ToU128Array (u256OfU128Array ws) = ws) := by
  refine ⟨fun v hv => ?_, fun ws hl hw => ?_, fun ws hl hw => ?_,
    fun ws hl hw => ?_, fun ws hl hw => ?_⟩
  · obtain ⟨hlen, hb⟩ := hv
    refine ⟨?_, ?_, ?_, ?_⟩
    · show (⟨(List.map (natToBytesBE 2) (toWords 2 16 v.bytes)).flatten⟩ : U256) = v
      rw [toWords_flatten 2 16 v.bytes (by omega) hb]
    · show (⟨(List.map (natToBytesBE 4) (toWords 4 8 v.bytes)).flatten⟩ : U256) = v
      rw [toWords_flatten 4 8 v.bytes (by omega) hb]
    · show (⟨(List.map (natToBytesBE 8) (toWords 8 4 v.bytes)).flatten⟩ : U256) = v
      rw [toWords_flatten 8 4 v.bytes (by omega) hb]
    · show (⟨(List.map (natToBytesBE 16) (toWords 16 2 v.bytes)).flatten⟩ : U256) = v
      rw [toWords_flatten 16 2 v.bytes (by omega) hb]
  · have hw2 : ∀ w ∈ ws, w < 256 ^ 2 := by
      intro w hww
      have := hw w hww
      norm_num at this ⊢
      omega
    have := toWords_of_flatten 2 ws hw2
    rw [hl] at this
    show toWords 2 16 ((ws.map (natToBytesBE 2)).flatten) = ws
    exact this
  · have hw2 : ∀ w ∈ ws, w < 256 ^ 4 := by
      intro w hww
      have := hw w hww
      norm_num at this ⊢
      omega
    have := toWords_of_flatten 4 ws hw2
    rw [hl] at this
    show toWords 4 8 ((ws.map (natToBytesBE 4)).flatten) = ws
    exact this
  · have hw2 : ∀ w ∈ ws, w < 256 ^ 8 := by
      intro w hww
      have := hw w hww
      norm_num at this ⊢
      omega
    have := toWords_of_flatten 8 ws hw2
    rw [hl] at this
    show toWords 8 4 ((ws.map (natToBytesBE 8)).flatten) = ws
    exact this
  · have hw2 : ∀ w ∈ ws, w < 256 ^ 16 := by
      intro w hww
      have := hw w hww
      norm_num at this ⊢
      omega
    have := toWords_of_flatten 16 ws hw2
    rw [hl] at this
    show toWords 16 2 ((ws.map (natToBytesBE 16)).flatten) = ws
    exact this

/-- Witness for C8 at concrete inputs. -/
theorem array_roundtrips_witness :
    u256OfU32Array (u256ToU32Array (u256OfU64 0xDEADBEEF)) = u256OfU64 0xDEADBEEF ∧
    u256ToU16Array (u256OfU16Array
      [1, 2, 3, 4, 5, 6, 7, 8, 9, 10, 11, 12, 13, 14, 15, 0xFFFF]) =
      [1, 2, 3, 4, 5, 6, 7, 8, 9, 10, 11, 12, 13, 14, 15, 0xFFFF] :=
  ⟨((array_roundtrips.1 _ (by decide)).2.1),
    array_roundtrips.2.1 _ (by decide) (by decide)⟩

/-- Witness for C10 at concrete inputs. -/
theorem shift_byte_aligned_witness :
    valBE (shl (u256OfU32 0xDEADBEEF) (u256OfU16 8)).bytes =
      valBE (u256OfU32 0xDEADBEEF).bytes * 2 ^ (8 * 1) % 2 ^ 256 ∧
    valBE (shr (u256OfU32 0xDEADBEEF) (u256OfU16 8)).bytes =
      valBE (u256OfU32 0xDEADBEEF).bytes / 2 ^ (8 * 1) :=
  shift_byte_aligned _ _ 1 (by decide) (by decide) (by decide) (by decide)

end Crypto
